import Mathlib

/-!
Verification development for the moovent-stack local service orchestration
engine (moovent_stack/admin: logs.py, services.py, watchdog.py, server.py).

Conventions of the shallow embedding:
* Python dicts are modelled as insertion-ordered association lists; reachable
  dicts have unique keys, and the operations below preserve the semantics of
  dict assignment (replace in place, else append), `setdefault` and `pop`.
* `time.time()` values and file mtimes are abstract clock ticks in `Nat`.
* Process handles (`subprocess.Popen`) are records carrying the pid and the
  current `poll()` result; the operating system's choices (spawned pids,
  clock readings, `lsof`/TCP probe results) are explicit oracle arguments.
* Exit codes are `Int`.
-/

namespace Moovent

/-- Python `d.get(k)`: first binding for `k`, if any. -/
def dictGet {α : Type} (d : List (String × α)) (k : String) : Option α :=
  match d with
  | [] => none
  | (k0, v0) :: rest => if k0 = k then some v0 else dictGet rest k

/-- Python `d[k] = v`: replace the binding in place, else append it. -/
def dictSet {α : Type} (d : List (String × α)) (k : String) (v : α) :
    List (String × α) :=
  match d with
  | [] => [(k, v)]
  | (k0, v0) :: rest =>
      if k0 = k then (k0, v) :: rest else (k0, v0) :: dictSet rest k v

/-- Python `d.setdefault(k, v)`: insert only when the key is absent. -/
def dictSetdefault {α : Type} (d : List (String × α)) (k : String) (v : α) :
    List (String × α) :=
  match dictGet d k with
  | some _ => d
  | none => d ++ [(k, v)]

/-- Python `d.pop(k, None)`, removal part (dict keys are unique, so removing
every binding for `k` agrees with removing the one binding). -/
def dictRemove {α : Type} (d : List (String × α)) (k : String) :
    List (String × α) :=
  d.filter (fun kv => kv.1 ≠ k)

/-- Suffix of the last `n` elements; the retention behaviour of a Python
`deque(maxlen=n)` after an append. -/
def takeLast {α : Type} (n : Nat) (l : List α) : List α :=
  l.drop (l.length - n)

/-- admin/logs.py LogEntry: single log line with monotonic id. -/
structure LogEntry where
  id : Nat
  ts : Nat
  line : String
deriving DecidableEq, Repr

/-- admin/logs.py LogStore: per-service ring buffers (oldest first) with a
global id sequence.  The lock and condition variable guard concurrent access
only and have no sequential semantics. -/
structure LogStore where
  max_entries : Nat
  entries : List (String × List LogEntry)
  next_id : Nat
deriving DecidableEq, Repr

/-- `LogStore.__init__`. -/
def LogStore.init (maxEntries : Nat) : LogStore :=
  { max_entries := maxEntries, entries := [], next_id := 1 }

/-- `LogStore.append`: assign the next global id, push into that service's
bounded deque (evicting the oldest entries beyond `max_entries`).  The caller
supplies `now` for `time.time()`. -/
def LogStore.append (s : LogStore) (service : String) (now : Nat)
    (line : String) : LogStore × LogEntry :=
  let entry : LogEntry := { id := s.next_id, ts := now, line := line }
  let buf := (dictGet s.entries service).getD []
  let buf' := takeLast s.max_entries (buf ++ [entry])
  ({ s with entries := dictSet s.entries service buf',
            next_id := s.next_id + 1 }, entry)

/-- `LogStore.tail`: last `limit` entries (empty for missing service or a
non-positive limit, mirroring the source's explicit checks). -/
def LogStore.tail (s : LogStore) (service : String) (limit : Int) :
    List LogEntry :=
  match dictGet s.entries service with
  | none => []
  | some buf =>
      if buf = [] then []
      else if limit ≤ 0 then []
      else takeLast limit.toNat buf

/-- `LogStore.min_id`: id of the oldest retained entry. -/
def LogStore.min_id (s : LogStore) (service : String) : Option Nat :=
  match dictGet s.entries service with
  | some (e :: _) => some e.id
  | _ => none

/-- `LogStore.max_id`: id of the newest retained entry. -/
def LogStore.max_id (s : LogStore) (service : String) : Option Nat :=
  match dictGet s.entries service with
  | some buf =>
      if buf = [] then none else (buf.getLast?).map LogEntry.id
  | none => none

/-- One recorded `append` call: service name, clock reading, line. -/
structure AppendOp where
  service : String
  now : Nat
  line : String
deriving DecidableEq, Repr

/-- Replay a sequence of `append` calls against a store. -/
def applyAppends (s : LogStore) (ops : List AppendOp) : LogStore :=
  match ops with
  | [] => s
  | op :: rest => applyAppends (s.append op.service op.now op.line).1 rest

/-- Well-formedness carried by every reachable store: each buffer has
strictly increasing ids below the global counter and respects capacity. -/
def LogStore.WF (s : LogStore) : Prop :=
  ∀ svc buf, dictGet s.entries svc = some buf →
    (buf.map LogEntry.id).Pairwise (· < ·) ∧
    (∀ e ∈ buf, e.id < s.next_id) ∧
    buf.length ≤ s.max_entries

/-- server.py `/api/logs/{name}` handler: the `truncated` flag is computed
from the tailed entries and the store's min/max ids, with Python `int`
arithmetic (modelled in `Int`). -/
def logsTruncatedFlag (s : LogStore) (service : String) (tailN : Int) :
    Bool :=
  let entries := s.tail service tailN
  match s.min_id service, s.max_id service with
  | some mn, some mx => decide ((mx : Int) - (mn : Int) + 1 > entries.length)
  | _, _ => false

/-- Number of appends a trace directs at one service. -/
def appendedCount (ops : List AppendOp) (svc : String) : Nat :=
  (ops.filter (fun op => op.service = svc)).length

/-- Length of the buffer a store currently holds for a service. -/
def bufLen (s : LogStore) (svc : String) : Nat :=
  ((dictGet s.entries svc).getD []).length

/-- A service's ring buffer evicted entries during a trace exactly when it
holds fewer entries than were appended to it. -/
def evictedDuring (N : Nat) (ops : List AppendOp) (svc : String) : Bool :=
  decide (bufLen (applyAppends (LogStore.init N) ops) svc <
    appendedCount ops svc)

/-- admin/services.py ServiceSpec (paths as strings). -/
structure ServiceSpec where
  name : String
  cmd : List String
  cwd : String
  env : List (String × String)
  url : String
  health_url : String
  port : Nat
  repo : Option String := none
deriving DecidableEq, Repr

/-- A `subprocess.Popen` handle: its pid and the current `poll()` result
(none while the process is alive). -/
structure Proc where
  pid : Nat
  exitCode : Option Int
deriving DecidableEq, Repr

/-- admin/services.py StackManager state (the lock guards concurrent access
only; `quiet` merely gates terminal echo and the reader thread is plain
stream forwarding, so neither carries sequential state). -/
structure StackManager where
  services : List (String × ServiceSpec)
  procs : List (String × Proc)
  start_times : List (String × Nat)
  desired_running : List (String × Bool)
  restart_counts : List (String × Nat)
  last_exit_codes : List (String × Int)
  last_pids : List (String × Nat)
  log_store : LogStore
deriving DecidableEq, Repr

/-- `StackManager.__init__`. -/
def StackManager.init (store : LogStore) : StackManager :=
  { services := [], procs := [], start_times := [], desired_running := [],
    restart_counts := [], last_exit_codes := [], last_pids := [],
    log_store := store }

/-- `StackManager.register`: unconditionally stores the spec under its name
and `setdefault`s desired-running/restart-count. -/
def StackManager.register (m : StackManager) (spec : ServiceSpec) :
    StackManager :=
  { m with services := dictSet m.services spec.name spec,
           desired_running := dictSetdefault m.desired_running spec.name true,
           restart_counts := dictSetdefault m.restart_counts spec.name 0 }

/-- Oracle for one `_popen` call: the handle the OS returns, and the
`time.time()` reading taken right after. -/
structure SpawnEnv where
  newProc : Proc
  now : Nat
deriving DecidableEq, Repr

/-- `StackManager.start`: no-op success when a live process exists; otherwise
set desired-running, spawn, record start time and pid, log the start line and
hand the stream to a reader thread.  Returns (result, state, spawned handle);
the third component is `none` exactly when `_popen` was not called. -/
def StackManager.start (m : StackManager) (e : SpawnEnv) (name : String) :
    Bool × StackManager × Option Proc :=
  match dictGet m.services name with
  | none => (false, m, none)
  | some _spec =>
      let launch : StackManager → Bool × StackManager × Option Proc :=
        fun m0 =>
          let m1 := { m0 with
            desired_running := dictSet m0.desired_running name true }
          let np := e.newProc
          let m2 := { m1 with
            procs := dictSet m1.procs name np,
            start_times := dictSet m1.start_times name e.now,
            last_pids := if np.pid ≠ 0 then dictSet m1.last_pids name np.pid
              else m1.last_pids }
          let m3 := { m2 with log_store := (m2.log_store.append name e.now
            ("[runner] started (pid=" ++ toString np.pid ++ ")")).1 }
          (true, m3, some np)
      match dictGet m.procs name with
      | some proc => if proc.exitCode = none then (true, m, none) else launch m
      | none => launch m

/-- `StackManager.stop`: pop the handle, clear desired-running, remember the
pid, terminate the process group (an OS effect outside the state) and log. -/
def StackManager.stop (m : StackManager) (now : Nat) (name : String) :
    Bool × StackManager :=
  match dictGet m.services name with
  | none => (false, m)
  | some _spec =>
      let popped := dictGet m.procs name
      let m1 := { m with procs := dictRemove m.procs name,
                         desired_running := dictSet m.desired_running name false }
      match popped with
      | none => (true, m1)
      | some proc =>
          let m2 := { m1 with
            last_pids := if proc.pid ≠ 0 then dictSet m1.last_pids name proc.pid
              else m1.last_pids }
          let m3 := { m2 with log_store :=
            (m2.log_store.append name now "[runner] stopped").1 }
          (true, m3)

/-- The `old_pid` captured at the top of `StackManager.restart`. -/
def StackManager.oldPidOf (m : StackManager) (name : String) : Option Nat :=
  match dictGet m.procs name with
  | some proc => if proc.pid ≠ 0 then some proc.pid else none
  | none => none

/-- Outcome of restart's port-release wait loop. -/
inductive WaitOutcome where
  | freed
  | blocked (listeners : List Nat)
  | deadline
deriving DecidableEq, Repr

/-- restart's wait loop over the oracle trace of per-iteration probe results
(`tcp_listen_pids` listeners, `tcp_open_any`); an exhausted trace is the 8 s
deadline expiring.  Mirrors the source: break when nothing listens and the
port is closed; abort when the prior pid is known and some listener differs
from it; otherwise sleep and poll again. -/
def portWait (oldPid : Option Nat) (obs : List (List Nat × Bool)) :
    WaitOutcome :=
  match obs with
  | [] => .deadline
  | (listeners, openAny) :: rest =>
      if listeners.isEmpty && !openAny then .freed
      else
        match oldPid with
        | some op =>
            if !listeners.isEmpty && listeners.any (fun p => p != op) then
              .blocked listeners
            else portWait (some op) rest
        | none => portWait none rest

/-- Oracle for one `restart` call: probe results for each wait iteration,
the spawn oracle for the eventual `start`, and the clock reading. -/
structure RestartEnv where
  obs : List (List Nat × Bool)
  spawn : SpawnEnv
  now : Nat
deriving DecidableEq, Repr

/-- `StackManager.restart`: bump the restart counter, log, capture the prior
pid, stop, then for port-bearing specs run the wait loop — a foreign
listener aborts with failure, while port release or deadline expiry falls
through to `start`. -/
def StackManager.restart (m : StackManager) (e : RestartEnv) (name : String) :
    Bool × StackManager × Option Proc :=
  match dictGet m.services name with
  | none => (false, m, none)
  | some spec =>
      let newCount := (dictGet m.restart_counts name).getD 0 + 1
      let m1 := { m with
        restart_counts := dictSet m.restart_counts name newCount }
      let m2 := { m1 with log_store :=
        (m1.log_store.append name e.now "[runner] restart requested").1 }
      let oldPid := m2.oldPidOf name
      let m3 := (m2.stop e.now name).2
      if spec.port ≠ 0 then
        match portWait oldPid e.obs with
        | .blocked listeners =>
            let m4 := { m3 with log_store := (m3.log_store.append name e.now
              ("[runner] restart blocked: port " ++ toString spec.port ++
                " in use by PID(s): " ++ String.intercalate ", "
                  ((listeners.take 5).map toString))).1 }
            (false, m4, none)
        | _ => m3.start e.spawn name
      else m3.start e.spawn name

/-- `StackManager.note_exit`: record an unexpected exit once per distinct
code — a repeat of the last recorded code returns without touching state,
anything else stores the code and appends one log line.  Total, hence it
cannot raise across the supervisor. -/
def StackManager.note_exit (m : StackManager) (now : Nat) (name : String)
    (code : Int) : StackManager :=
  match dictGet m.last_exit_codes name with
  | some last =>
      if last = code then m
      else
        { m with last_exit_codes := dictSet m.last_exit_codes name code,
                 log_store := (m.log_store.append name now
                   ("[runner] process exited with code " ++ toString code)).1 }
  | none =>
      { m with last_exit_codes := dictSet m.last_exit_codes name code,
               log_store := (m.log_store.append name now
                 ("[runner] process exited with code " ++ toString code)).1 }

/-- Python's substring containment `needle in hay` (for the non-empty
needles of the alert pattern table). -/
def containsSub (hay needle : String) : Bool :=
  (hay.splitOn needle).length ≥ 2

/-- admin/logs.py alert dict, with the optional port enrichment applied by
`status_snapshot`. -/
structure Alert where
  type : String
  message : String
  ts : Nat
  port : Option Nat := none
  listener_pids : List Nat := []
deriving DecidableEq, Repr

/-- The alert pattern table of `LogStore.detect_alert`. -/
def alert_patterns : List (String × String) :=
  [("port_in_use", "port in use"),
   ("port_in_use", "address already in use"),
   ("port_in_use", "EADDRINUSE"),
   ("connection_refused", "connection refused"),
   ("module_not_found", "ModuleNotFoundError"),
   ("module_not_found", "Cannot find module")]

/-- `LogStore.detect_alert`: scan the last `lookback` lines, most recent
first, for the first case-insensitive pattern match. -/
def LogStore.detect_alert (s : LogStore) (service : String)
    (lookback : Nat) : Option Alert :=
  match dictGet s.entries service with
  | none => none
  | some buf =>
      if buf = [] then none
      else
        (takeLast lookback buf).reverse.findSome? fun entry =>
          alert_patterns.findSome? fun pat =>
            if containsSub entry.line.toLower pat.2.toLower then
              some { type := pat.1, message := entry.line.trim,
                     ts := entry.ts }
            else none

/-- Oracle for one `status_snapshot` call: the clock and the results the OS
would give for the TCP probe, the HTTP health probe and `tcp_listen_pids`. -/
structure SnapshotEnv where
  now : Nat
  tcpOpen : Nat → Bool
  httpOk : String → Bool × String
  listenPids : Nat → List Nat

/-- One row of `status_snapshot`'s output. -/
structure StatusRow where
  name : String
  pid : Option Nat
  running : Bool
  exit_code : Option Int
  uptime_s : Option Nat
  url : String
  health_url : String
  port : Nat
  port_open : Bool
  health_ok : Bool
  health_status : String
  restart_count : Nat
  desired_running : Bool
  repo_root : String
  repo_name : String
  infisical_env : String
  alert : Option Alert
deriving Repr

/-- The body of `status_snapshot`'s per-service loop; also returns the
manager because observing a finished process writes `last_exit_codes`. -/
def snapshotRow (m : StackManager) (e : SnapshotEnv) (name : String)
    (spec : ServiceSpec) : StatusRow × StackManager :=
  let proc := dictGet m.procs name
  let code := match proc with
    | some p => p.exitCode
    | none => none
  let running := proc.isSome && code.isNone
  let uptime_s := if running then
      some (e.now - (dictGet m.start_times name).getD e.now) else none
  let port_open := if spec.port ≠ 0 then e.tcpOpen spec.port else false
  let health := if running then
      (if spec.health_url ≠ "" then e.httpOk spec.health_url
       else (port_open, if port_open then "PORT open" else "PORT closed"))
    else (false, "n/a")
  let m' := match code with
    | some c => { m with last_exit_codes := dictSet m.last_exit_codes name c }
    | none => m
  let alert0 := if running && (!health.1 || !port_open) then
      m.log_store.detect_alert name 60 else none
  let alert := match alert0 with
    | some a =>
        if a.type = "port_in_use" ∧ spec.port ≠ 0 then
          some { a with port := some spec.port,
                        listener_pids := (e.listenPids spec.port).take 5 }
        else some a
    | none => none
  let infisical := ((dictGet spec.env "INFISICAL_ENVIRONMENT").getD "dev")
  ({ name := name, pid := proc.map Proc.pid, running := running,
     exit_code := code, uptime_s := uptime_s, url := spec.url,
     health_url := spec.health_url, port := spec.port,
     port_open := port_open, health_ok := health.1,
     health_status := health.2,
     restart_count := (dictGet m.restart_counts name).getD 0,
     desired_running := (dictGet m.desired_running name).getD false,
     repo_root := spec.repo.getD "",
     repo_name := (((spec.repo.getD "").splitOn "/").getLastD ""),
     infisical_env := infisical, alert := alert }, m')

/-- `status_snapshot`'s loop over the service registry, in registration
order, threading the manager through each row. -/
def snapGo (e : SnapshotEnv) (m : StackManager)
    (kvs : List (String × ServiceSpec)) : List StatusRow × StackManager :=
  match kvs with
  | [] => ([], m)
  | (n, sp) :: rest =>
      let rm := snapshotRow m e n sp
      let rest' := snapGo e rm.2 rest
      (rm.1 :: rest'.1, rest'.2)

/-- `StackManager.status_snapshot`. -/
def StackManager.status_snapshot (m : StackManager) (e : SnapshotEnv) :
    List StatusRow × StackManager :=
  snapGo e m m.services

/-- Concrete fixture for the C9 witness: a registered service with a live
process of pid 42. -/
def c9spec : ServiceSpec :=
  { name := "svc", cmd := ["run"], cwd := "/w", env := [], url := "",
    health_url := "", port := 0, repo := none }

def c9mgr : StackManager :=
  { services := [("svc", c9spec)], procs := [("svc", ⟨42, none⟩)],
    start_times := [("svc", 0)], desired_running := [("svc", true)],
    restart_counts := [("svc", 0)], last_exit_codes := [],
    last_pids := [("svc", 42)], log_store := LogStore.init 10 }

/-- Concrete fixtures for the C3 counterexample: two different specs sharing
the name "a". -/
def c3specA : ServiceSpec :=
  { name := "a", cmd := ["old"], cwd := "/w", env := [], url := "",
    health_url := "", port := 0, repo := none }

def c3specB : ServiceSpec :=
  { name := "a", cmd := ["new"], cwd := "/w", env := [], url := "",
    health_url := "", port := 0, repo := none }

/-- Concrete fixture for C1: a registered frontend on port 4000 that is not
currently running (the situation of the repository's own unit tests, where
a listener — stale or foreign — occupies the port). -/
def c1spec : ServiceSpec :=
  { name := "frontend", cmd := ["npm", "run", "dev"],
    cwd := "/tmp/workspace/dashboard/client", env := [],
    url := "http://localhost:4000", health_url := "http://localhost:4000",
    port := 4000, repo := none }

def c1mgr : StackManager :=
  (StackManager.init (LogStore.init 50)).register c1spec

/-- C2 counterexample: a registered service on port 4000 whose own prior pid
100 keeps the port busy through every wait iteration until the deadline
expires.  The claim says such a restart returns failure without attempting
to start; the code instead falls out of the wait loop, starts the service
(spawning pid 200) and returns success. -/
def c2spec : ServiceSpec :=
  { name := "svc", cmd := ["run"], cwd := "/w", env := [],
    url := "http://localhost:4000", health_url := "", port := 4000,
    repo := none }

def c2mgr : StackManager :=
  { services := [("svc", c2spec)], procs := [("svc", ⟨100, none⟩)],
    start_times := [("svc", 0)], desired_running := [("svc", true)],
    restart_counts := [("svc", 0)], last_exit_codes := [],
    last_pids := [("svc", 100)], log_store := LogStore.init 20 }

def c2env : RestartEnv :=
  { obs := [([100], true), ([100], true)], spawn := ⟨⟨200, none⟩, 9⟩,
    now := 9 }

def c5mgr : StackManager :=
  { services := [("svc", c9spec)], procs := [],
    start_times := [], desired_running := [("svc", true)],
    restart_counts := [("svc", 0)], last_exit_codes := [],
    last_pids := [("svc", 42)], log_store := LogStore.init 10 }

/-- admin/watchdog.py WatchRule (root as string, debounce in ticks). -/
structure WatchRule where
  service : String
  root : String
  globs : List String
  action : String
  debounce_s : Nat
  reason : String
deriving DecidableEq, Repr

/-- admin/watchdog.py WatchEvent. -/
structure WatchEvent where
  service : String
  action : String
  reason : String
deriving DecidableEq, Repr

/-- The event `poll` appends for a triggering rule. -/
def eventOf (r : WatchRule) : WatchEvent :=
  { service := r.service, action := r.action, reason := r.reason }

/-- The per-rule slice of the watchdog's state: `_last_seen.get(i, 0.0)` and
`_pending_since.get(i)`.  The integer-index dicts are modelled as a list
parallel to the rules; `prime` populates every index, and absent indices
read as the defaults 0 / none, which the initial states below carry
explicitly. -/
structure RuleState where
  last_seen : Nat
  pending_since : Option Nat
deriving DecidableEq, Repr

/-- The body of `poll`'s per-rule loop: on an mtime increase (`latest >
prev + 1e-9` — over integer ticks, `prev < latest`), open or extend the
pending burst; then, when pending and the debounce has elapsed since the
burst started, emit the rule's event and return to steady state. -/
def ruleStep (rule : WatchRule) (latest t : Nat) (s : RuleState) :
    RuleState × List WatchEvent :=
  let s1 :=
    if s.last_seen < latest then
      match s.pending_since with
      | none => { last_seen := latest, pending_since := some t }
      | some p => { last_seen := max s.last_seen latest,
                    pending_since := some p }
    else s
  match s1.pending_since with
  | none => (s1, [])
  | some p =>
      if t - p < max 0 rule.debounce_s then (s1, [])
      else ({ s1 with pending_since := none }, [eventOf rule])

/-- `poll`'s `for i, rule in enumerate(self._rules)` loop: `fs j t` is the
filesystem's answer to `_latest_mtime` for rule index `j` at time `t`. -/
def pollGo (fs : Nat → Nat → Nat) (t : Nat) :
    Nat → List WatchRule → List RuleState →
      List RuleState × List WatchEvent
  | _, [], _ => ([], [])
  | _, _ :: _, [] => ([], [])
  | i, r :: rs, s :: ss =>
      let st := ruleStep r (fs i t) t s
      let rest := pollGo fs t (i + 1) rs ss
      (st.1 :: rest.1, st.2 ++ rest.2)

/-- One `poll(now)` call over all rules. -/
def ServiceWatchdog.poll (fs : Nat → Nat → Nat) (rules : List WatchRule)
    (states : List RuleState) (t : Nat) :
    List RuleState × List WatchEvent :=
  pollGo fs t 0 rules states

/-- Drive `poll` at each time of `polls`, tagging each emitted event with
the poll time that produced it. -/
def runPolls (fs : Nat → Nat → Nat) (rules : List WatchRule) :
    List RuleState → List Nat → List RuleState × List (Nat × WatchEvent)
  | ss, [] => (ss, [])
  | ss, t :: ts =>
      let p := ServiceWatchdog.poll fs rules ss t
      let rest := runPolls fs rules p.1 ts
      (rest.1, p.2.map (fun ev => (t, ev)) ++ rest.2)

/-- `prime()`: baseline every rule's last-seen mtime at time `t0`, pending
cleared. -/
def primeStates (fs : Nat → Nat → Nat) (t0 : Nat)
    (rules : List WatchRule) : List RuleState :=
  (List.range rules.length).map
    (fun i => { last_seen := fs i t0, pending_since := none })

/-- `_latest_mtime` against a filesystem in which each element of `mods` is
a file-modification instant that is visible (as that file's mtime) from its
own time onward: the max of the visible mtimes, 0 when none. -/
def latestMtime (mods : List Nat) (t : Nat) : Nat :=
  (mods.filter (fun mt => decide (mt ≤ t))).foldl max 0

/-- A single rule driven alone through a list of poll times. -/
def singleRun (ob : Nat → Nat) (rule : WatchRule) :
    RuleState → List Nat → RuleState × List (Nat × WatchEvent)
  | s, [] => (s, [])
  | s, t :: ts =>
      let st := ruleStep rule (ob t) t s
      let rest := singleRun ob rule st.1 ts
      (rest.1, st.2.map (fun ev => (t, ev)) ++ rest.2)

def c6rule : WatchRule :=
  { service := "svc", root := "/root", globs := ["*.py"],
    action := "restart", debounce_s := 3, reason := "src changed" }

theorem dictGet_dictSet {α : Type} (d : List (String × α)) (k k' : String)
    (v : α) :
    dictGet (dictSet d k v) k' = if k = k' then some v else dictGet d k' := by
  induction d with
  | nil =>
      by_cases h : k = k' <;> simp [dictSet, dictGet, h]
  | cons kv rest ih =>
      obtain ⟨k0, v0⟩ := kv
      by_cases h0 : k0 = k
      · subst h0
        by_cases h : k0 = k' <;> simp [dictSet, dictGet, h]
      · by_cases h : k0 = k'
        · subst h
          have hk : ¬k = k0 := fun h => h0 h.symm
          simp [dictSet, dictGet, h0, hk]
        · simp [dictSet, dictGet, h0, h, ih]

theorem dictGet_dictRemove_self {α : Type} (d : List (String × α))
    (k : String) : dictGet (dictRemove d k) k = none := by
  induction d with
  | nil => simp [dictRemove, dictGet]
  | cons kv rest ih =>
      obtain ⟨k0, v0⟩ := kv
      by_cases h : k0 = k
      · simpa [dictRemove, h] using ih
      · simpa [dictRemove, dictGet, h] using ih

/-- Suffix of the last `n` elements; the retention behaviour of a Python
`deque(maxlen=n)` after an append. -/

theorem takeLast_suffix {α : Type} (n : Nat) (l : List α) :
    takeLast n l <:+ l :=
  List.drop_suffix _ _

theorem length_takeLast {α : Type} (n : Nat) (l : List α) :
    (takeLast n l).length = min n l.length := by
  simp [takeLast]
  omega

/-- admin/logs.py LogEntry: single log line with monotonic id. -/

theorem LogStore.WF_init (n : Nat) : (LogStore.init n).WF := by
  intro svc buf h
  simp [LogStore.init, dictGet] at h

theorem LogStore.WF_append (s : LogStore) (service : String) (now : Nat)
    (line : String) (h : s.WF) : (s.append service now line).1.WF := by
  intro svc buf hget
  simp only [LogStore.append] at hget ⊢
  rw [dictGet_dictSet] at hget
  by_cases hsvc : service = svc
  · rw [if_pos hsvc] at hget
    set entry : LogEntry := { id := s.next_id, ts := now, line := line }
      with hentry
    set old := (dictGet s.entries service).getD [] with hold
    have hOldWF : ((old.map LogEntry.id).Pairwise (· < ·)) ∧
        (∀ e ∈ old, e.id < s.next_id) := by
      rcases hEq : dictGet s.entries service with _ | oldBuf
      · simp [hold, hEq]
      · have hw := h service oldBuf hEq
        rw [hold, hEq]
        exact ⟨hw.1, hw.2.1⟩
    have hPair : ((old ++ [entry]).map LogEntry.id).Pairwise (· < ·) := by
      rw [List.map_append, List.pairwise_append]
      refine ⟨hOldWF.1, List.pairwise_singleton _ _, ?_⟩
      intro x hx y hy
      simp only [List.map_singleton, List.mem_singleton] at hy
      subst hy
      obtain ⟨e, he, rfl⟩ := List.mem_map.mp hx
      exact hOldWF.2 e he
    have hsub : List.Sublist buf (old ++ [entry]) := by
      have hsf := takeLast_suffix s.max_entries (old ++ [entry])
      have hbuf : buf = takeLast s.max_entries (old ++ [entry]) := by
        injection hget with hg
        exact hg.symm
      rw [hbuf]
      exact hsf.sublist
    refine ⟨?_, ?_, ?_⟩
    · exact hPair.sublist (hsub.map LogEntry.id)
    · intro e he
      have he' := hsub.subset he
      rcases List.mem_append.mp he' with hmem | hmem
      · exact Nat.lt_succ_of_lt (hOldWF.2 e hmem)
      · simp only [List.mem_singleton] at hmem
        subst hmem
        exact Nat.lt_succ_self _
    · have hlen : buf.length = (takeLast s.max_entries
          (old ++ [entry])).length := by
        injection hget with hg
        rw [hg]
      rw [hlen, length_takeLast]
      exact Nat.min_le_left _ _
  · rw [if_neg hsvc] at hget
    obtain ⟨h1, h2, h3⟩ := h svc buf hget
    exact ⟨h1, fun e he => Nat.lt_succ_of_lt (h2 e he), h3⟩

theorem LogStore.WF_applyAppends (s : LogStore) (ops : List AppendOp)
    (h : s.WF) : (applyAppends s ops).WF := by
  induction ops generalizing s with
  | nil => exact h
  | cons op rest ih =>
      exact ih _ (s.WF_append op.service op.now op.line h)

theorem applyAppends_max_entries (s : LogStore) (ops : List AppendOp) :
    (applyAppends s ops).max_entries = s.max_entries := by
  induction ops generalizing s with
  | nil => rfl
  | cons op rest ih => simpa [applyAppends, LogStore.append] using ih _

/-- server.py `/api/logs/{name}` handler: the `truncated` flag is computed
from the tailed entries and the store's min/max ids, with Python `int`
arithmetic (modelled in `Int`). -/

theorem le_getLast_of_pairwise_lt :
    ∀ (l : List Nat), l.Pairwise (· < ·) → ∀ b, l.getLast? = some b →
      ∀ x ∈ l, x ≤ b := by
  intro l
  induction l with
  | nil => intro _ b hb; cases hb
  | cons a rest ih =>
      intro hp b hb x hx
      cases rest with
      | nil =>
          simp only [List.getLast?_singleton, Option.some.injEq] at hb
          simp only [List.mem_singleton] at hx
          omega
      | cons c cs =>
          have hb' : (c :: cs).getLast? = some b := by
            rwa [List.getLast?_cons_cons] at hb
          have hp' : (c :: cs).Pairwise (· < ·) := (List.pairwise_cons.mp hp).2
          rcases List.mem_cons.mp hx with rfl | hx'
          · have hcb : c ≤ b := ih hp' b hb' c (List.mem_cons_self c cs)
            have hac : x < c :=
              (List.pairwise_cons.mp hp).1 c (List.mem_cons_self c cs)
            omega
          · exact ih hp' b hb' x hx'

theorem ge_head_of_pairwise_lt (a : Nat) (rest : List Nat)
    (hp : (a :: rest).Pairwise (· < ·)) :
    ∀ x ∈ a :: rest, a ≤ x := by
  intro x hx
  rcases List.mem_cons.mp hx with rfl | hx'
  · exact Nat.le_refl _
  · exact Nat.le_of_lt ((List.pairwise_cons.mp hp).1 x hx')

/-- Counting characterisation of gaps in a strictly increasing list of
naturals: the id-range size exceeds the length exactly when some value
strictly between the first and last element is missing. -/
theorem range_gt_length_iff_gap (l : List Nat) (hp : l.Pairwise (· < ·))
    (a b : Nat) (ha : l.head? = some a) (hb : l.getLast? = some b) :
    ((b : Int) - (a : Int) + 1 > l.length) ↔
      ∃ k, a < k ∧ k < b ∧ k ∉ l := by
  have hmem_a : a ∈ l := by
    cases l with
    | nil => cases ha
    | cons x xs =>
        simp only [List.head?_cons, Option.some.injEq] at ha
        subst ha; exact List.mem_cons_self x xs
  have hmem_b : b ∈ l := by
    have hbmem : b ∈ l.getLast? := by rw [hb]; rfl
    obtain ⟨hne, heq⟩ := List.mem_getLast?_eq_getLast hbmem
    rw [heq]
    exact List.getLast_mem hne
  have hle : ∀ x ∈ l, a ≤ x ∧ x ≤ b := by
    intro x hx
    refine ⟨?_, le_getLast_of_pairwise_lt l hp b hb x hx⟩
    cases l with
    | nil => cases hx
    | cons y ys =>
        simp only [List.head?_cons, Option.some.injEq] at ha
        subst ha
        exact ge_head_of_pairwise_lt _ _ hp x hx
  have hab : a ≤ b := (hle a hmem_a).2
  have hnd : l.Nodup := hp.imp (fun h => Nat.ne_of_lt h)
  have hcard : l.toFinset.card = l.length := List.toFinset_card_of_nodup hnd
  constructor
  · intro hgt
    by_contra hno
    push_neg at hno
    have hsub : Finset.Icc a b ⊆ l.toFinset := by
      intro k hk
      rw [Finset.mem_Icc] at hk
      rcases Nat.eq_or_lt_of_le hk.1 with rfl | hak
      · exact List.mem_toFinset.mpr hmem_a
      rcases Nat.eq_or_lt_of_le hk.2 with rfl | hkb
      · exact List.mem_toFinset.mpr hmem_b
      · exact List.mem_toFinset.mpr (hno k hak hkb)
    have hc := Finset.card_le_card hsub
    rw [Nat.card_Icc, hcard] at hc
    omega
  · rintro ⟨k, hak, hkb, hkl⟩
    have hsub : l.toFinset ⊆ (Finset.Icc a b).erase k := by
      intro x hx
      have hx' := List.mem_toFinset.mp hx
      refine Finset.mem_erase.mpr ⟨?_, ?_⟩
      · rintro rfl; exact hkl hx'
      · rw [Finset.mem_Icc]; exact ⟨(hle x hx').1, (hle x hx').2⟩
    have hc := Finset.card_le_card hsub
    have hkIcc : k ∈ Finset.Icc a b := by
      rw [Finset.mem_Icc]; omega
    rw [Finset.card_erase_of_mem hkIcc, Nat.card_Icc, hcard] at hc
    omega

/-- C7: for every service, the ids of that service's retained log entries are
strictly increasing in append order, across any number of appends to any
services (stop/start cycles only interleave further appends into the same
store, so they are instances of the quantified trace). -/
theorem C7_log_ids_strictly_increasing (N : Nat) (ops : List AppendOp)
    (svc : String) (buf : List LogEntry)
    (h : dictGet (applyAppends (LogStore.init N) ops).entries svc = some buf) :
    (buf.map LogEntry.id).Pairwise (· < ·) :=
  ((LogStore.WF_applyAppends _ ops (LogStore.WF_init N)) svc buf h).1

theorem C7_log_ids_strictly_increasing_witness :
    dictGet (applyAppends (LogStore.init 2)
        [⟨"a", 0, "one"⟩, ⟨"b", 0, "two"⟩, ⟨"a", 1, "three"⟩]).entries "a" =
      some [⟨1, 0, "one"⟩, ⟨3, 1, "three"⟩] ∧
    (([⟨1, 0, "one"⟩, ⟨3, 1, "three"⟩] : List LogEntry).map
        LogEntry.id).Pairwise (· < ·) :=
  ⟨by decide, C7_log_ids_strictly_increasing 2
    [⟨"a", 0, "one"⟩, ⟨"b", 0, "two"⟩, ⟨"a", 1, "three"⟩] "a"
    [⟨1, 0, "one"⟩, ⟨3, 1, "three"⟩] (by decide)⟩

/-- C8: a store configured with capacity N never returns more than N entries
from a tail of N+50, after any sequence of appends. -/
theorem C8_tail_bounded_by_capacity (N : Nat) (ops : List AppendOp)
    (svc : String) :
    ((applyAppends (LogStore.init N) ops).tail svc ((N : Int) + 50)).length
      ≤ N := by
  have hWF := LogStore.WF_applyAppends _ ops (LogStore.WF_init N)
  have hMax := applyAppends_max_entries (LogStore.init N) ops
  unfold LogStore.tail
  cases hEq : dictGet (applyAppends (LogStore.init N) ops).entries svc with
  | none => simp
  | some buf =>
      have hbl : buf.length ≤ N := by
        have := (hWF svc buf hEq).2.2
        rwa [hMax] at this
      by_cases hb : buf = []
      · simp [hb]
      · by_cases hpos : ((N : Int) + 50) ≤ 0
        · simp [hb, hpos]
        · simp only [hb, hpos, if_false, if_neg hb]
          rw [length_takeLast]
          exact le_trans (Nat.min_le_right _ _) hbl

/-- C4 counterexample: with capacity 2, the trace append(a), append(b),
append(a) leaves service a's buffer holding both of its appends (nothing
evicted), yet the id range is 1..3 so the truncated flag computed by the
server is true.  The claimed equivalence between the flag and eviction
fails. -/
theorem C4_truncated_without_eviction_cex :
    logsTruncatedFlag (applyAppends (LogStore.init 2)
        [⟨"a", 0, "one"⟩, ⟨"b", 0, "two"⟩, ⟨"a", 1, "three"⟩]) "a"
        ((2 : Int) + 50) = true ∧
    evictedDuring 2 [⟨"a", 0, "one"⟩, ⟨"b", 0, "two"⟩, ⟨"a", 1, "three"⟩]
        "a" = false := by
  decide

/-- C4 amended: the truncated flag computed by the server
(max_id − min_id + 1 > number of entries held) is true iff some id strictly
between the service's min and max ids is absent from its buffer.  Because ids
are global, such gaps come from appends to other services; eviction alone
removes only ids below min_id and does not set the flag. -/
theorem C4_truncated_iff_id_gap (N : Nat) (ops : List AppendOp)
    (svc : String) (buf : List LogEntry) (e1 el : LogEntry)
    (h : dictGet (applyAppends (LogStore.init N) ops).entries svc = some buf)
    (h1 : buf.head? = some e1) (h2 : buf.getLast? = some el) :
    (logsTruncatedFlag (applyAppends (LogStore.init N) ops) svc
        ((N : Int) + 50) = true) ↔
      ∃ k, e1.id < k ∧ k < el.id ∧ k ∉ buf.map LogEntry.id := by
  set s := applyAppends (LogStore.init N) ops with hs
  have hWF := LogStore.WF_applyAppends _ ops (LogStore.WF_init N)
  have hMax := applyAppends_max_entries (LogStore.init N) ops
  have hbl : buf.length ≤ N := by
    have := (hWF svc buf h).2.2
    rwa [hMax] at this
  have hPair := (hWF svc buf h).1
  obtain ⟨xs, rfl⟩ : ∃ xs, buf = e1 :: xs := by
    cases buf with
    | nil => cases h1
    | cons x xs =>
        simp only [List.head?_cons, Option.some.injEq] at h1
        exact ⟨xs, by rw [h1]⟩
  have hTail : s.tail svc ((N : Int) + 50) = e1 :: xs := by
    unfold LogStore.tail
    rw [h]
    have hpos : ¬((N : Int) + 50 ≤ 0) := by
      have : (0 : Int) ≤ (N : Int) := Int.ofNat_nonneg N
      omega
    simp only [if_neg hpos]
    rw [if_neg (List.cons_ne_nil e1 xs)]
    unfold takeLast
    have : (e1 :: xs).length - ((N : Int) + 50).toNat = 0 := by
      have h1 : (e1 :: xs).length ≤ N := hbl
      have h2 : ((N : Int) + 50).toNat = N + 50 := by omega
      omega
    rw [this, List.drop_zero]
  have hMin : s.min_id svc = some e1.id := by
    unfold LogStore.min_id
    rw [h]
  have hMaxId : s.max_id svc = some el.id := by
    unfold LogStore.max_id
    rw [h]
    simp [h2]
  unfold logsTruncatedFlag
  rw [hTail, hMin, hMaxId]
  simp only [decide_eq_true_eq]
  have hlen : (e1 :: xs).length = ((e1 :: xs).map LogEntry.id).length := by
    rw [List.length_map]
  rw [show ((el.id : Int) - (e1.id : Int) + 1 >
      ((e1 :: xs).length : Int)) ↔ ((el.id : Int) - (e1.id : Int) + 1 >
      (((e1 :: xs).map LogEntry.id).length : Int)) by rw [hlen]]
  exact range_gt_length_iff_gap ((e1 :: xs).map LogEntry.id) hPair e1.id el.id
    (by simp) (by rw [List.getLast?_map, h2]; rfl)

theorem C4_truncated_iff_id_gap_witness :
    ∃ k, 1 < k ∧ k < 3 ∧
      k ∉ ([⟨1, 0, "one"⟩, ⟨3, 1, "three"⟩] : List LogEntry).map
        LogEntry.id :=
  (C4_truncated_iff_id_gap 2
    [⟨"a", 0, "one"⟩, ⟨"b", 0, "two"⟩, ⟨"a", 1, "three"⟩] "a"
    [⟨1, 0, "one"⟩, ⟨3, 1, "three"⟩] ⟨1, 0, "one"⟩ ⟨3, 1, "three"⟩
    (by decide) (by decide) (by decide)).mp (by decide)

/-- admin/services.py ServiceSpec (paths as strings). -/

theorem dictGet_append {α : Type} (d1 d2 : List (String × α)) (k : String) :
    dictGet (d1 ++ d2) k =
      match dictGet d1 k with
      | some v => some v
      | none => dictGet d2 k := by
  induction d1 with
  | nil => simp [dictGet]
  | cons kv rest ih =>
      obtain ⟨k0, v0⟩ := kv
      by_cases h : k0 = k <;> simp [dictGet, h, ih]

theorem dictGet_dictSetdefault_self {α : Type} (d : List (String × α))
    (k : String) (v : α) :
    dictGet (dictSetdefault d k v) k = some ((dictGet d k).getD v) := by
  unfold dictSetdefault
  cases hEq : dictGet d k with
  | some w => simp [hEq]
  | none => rw [dictGet_append, hEq]; simp [dictGet]

theorem dictGet_dictSetdefault_some {α : Type} (d : List (String × α))
    (k : String) (v w : α) (h : dictGet d k = some w) :
    dictGet (dictSetdefault d k v) k = some w := by
  rw [dictGet_dictSetdefault_self, h]; rfl

theorem dictGet_mem {α : Type} (d : List (String × α)) (k : String) (v : α)
    (h : dictGet d k = some v) : (k, v) ∈ d := by
  induction d with
  | nil => cases h
  | cons kv rest ih =>
      obtain ⟨k0, v0⟩ := kv
      by_cases hk : k0 = k
      · subst hk
        simp [dictGet] at h
        subst h
        exact List.mem_cons_self _ _
      · simp [dictGet, hk] at h
        exact List.mem_cons_of_mem _ (ih h)

theorem StackManager.start_counts (m : StackManager) (e : SpawnEnv)
    (name : String) : (m.start e name).2.1.restart_counts =
      m.restart_counts := by
  unfold StackManager.start
  cases dictGet m.services name with
  | none => rfl
  | some spec =>
      cases dictGet m.procs name with
      | none => rfl
      | some proc =>
          by_cases h : proc.exitCode = none <;> simp [h]

theorem StackManager.start_services (m : StackManager) (e : SpawnEnv)
    (name : String) : (m.start e name).2.1.services = m.services := by
  unfold StackManager.start
  cases dictGet m.services name with
  | none => rfl
  | some spec =>
      cases dictGet m.procs name with
      | none => rfl
      | some proc =>
          by_cases h : proc.exitCode = none <;> simp [h]

theorem StackManager.stop_counts (m : StackManager) (now : Nat)
    (name : String) : (m.stop now name).2.restart_counts =
      m.restart_counts := by
  unfold StackManager.stop
  cases dictGet m.services name with
  | none => rfl
  | some spec =>
      cases dictGet m.procs name with
      | none => rfl
      | some proc => rfl

theorem StackManager.stop_services (m : StackManager) (now : Nat)
    (name : String) : (m.stop now name).2.services = m.services := by
  unfold StackManager.stop
  cases dictGet m.services name with
  | none => rfl
  | some spec =>
      cases dictGet m.procs name with
      | none => rfl
      | some proc => rfl

theorem StackManager.stop_procs (m : StackManager) (now : Nat)
    (name : String) (spec : ServiceSpec)
    (h : dictGet m.services name = some spec) :
    (m.stop now name).2.procs = dictRemove m.procs name := by
  unfold StackManager.stop
  rw [h]
  cases dictGet m.procs name with
  | none => rfl
  | some proc => rfl

theorem StackManager.stop_procs_none (m : StackManager) (now : Nat)
    (name : String) (spec : ServiceSpec)
    (h : dictGet m.services name = some spec) :
    dictGet (m.stop now name).2.procs name = none := by
  rw [StackManager.stop_procs m now name spec h]
  exact dictGet_dictRemove_self _ _

theorem snapshotRow_counts (m : StackManager) (e : SnapshotEnv)
    (n : String) (sp : ServiceSpec) :
    (snapshotRow m e n sp).2.restart_counts = m.restart_counts := by
  unfold snapshotRow
  cases hp : dictGet m.procs n with
  | none => rfl
  | some p =>
      obtain ⟨pid, ec⟩ := p
      cases ec with
      | none => rfl
      | some c => rfl

theorem snapGo_row_names (e : SnapshotEnv) :
    ∀ (kvs : List (String × ServiceSpec)) (m : StackManager)
      (row : StatusRow), row ∈ (snapGo e m kvs).1 →
      ∃ kv ∈ kvs, row.name = kv.1 ∧
        row.restart_count = (dictGet m.restart_counts kv.1).getD 0 := by
  intro kvs
  induction kvs with
  | nil => intro m row hr; cases hr
  | cons kv rest ih =>
      intro m row hr
      obtain ⟨n, sp⟩ := kv
      rcases List.mem_cons.mp hr with rfl | hr'
      · refine ⟨(n, sp), List.mem_cons_self _ _, ?_, ?_⟩ <;> rfl
      · obtain ⟨kv', hkv', hname, hcount⟩ := ih _ row hr'
        refine ⟨kv', List.mem_cons_of_mem _ hkv', hname, ?_⟩
        rwa [snapshotRow_counts] at hcount

theorem snapGo_exists_row (e : SnapshotEnv) :
    ∀ (kvs : List (String × ServiceSpec)) (m : StackManager)
      (kv : String × ServiceSpec), kv ∈ kvs →
      ∃ row ∈ (snapGo e m kvs).1, row.name = kv.1 := by
  intro kvs
  induction kvs with
  | nil => intro m kv hkv; cases hkv
  | cons kv0 rest ih =>
      intro m kv hkv
      obtain ⟨n, sp⟩ := kv0
      rcases List.mem_cons.mp hkv with rfl | hkv'
      · exact ⟨(snapshotRow m e n sp).1, List.mem_cons_self _ _, rfl⟩
      · obtain ⟨row, hrow, hname⟩ := ih _ kv hkv'
        exact ⟨row, List.mem_cons_of_mem _ hrow, hname⟩

theorem StackManager.oldPidOf_procs_congr (m m' : StackManager)
    (name : String) (h : m'.procs = m.procs) :
    m'.oldPidOf name = m.oldPidOf name := by
  unfold StackManager.oldPidOf
  rw [h]

/-- C9: start on a service whose recorded process is alive returns success,
leaves the whole manager state (hence the recorded PID) unchanged, and
spawns nothing. -/
theorem C9_start_idempotent_when_running (m : StackManager) (e : SpawnEnv)
    (name : String) (spec : ServiceSpec) (proc : Proc)
    (h1 : dictGet m.services name = some spec)
    (h2 : dictGet m.procs name = some proc)
    (h3 : proc.exitCode = none) :
    m.start e name = (true, m, none) := by
  unfold StackManager.start
  rw [h1, h2]
  simp [h3]

/-- Concrete fixture for the C9 witness: a registered service with a live
process of pid 42. -/

theorem C9_start_idempotent_when_running_witness :
    c9mgr.start ⟨⟨99, none⟩, 5⟩ "svc" = (true, c9mgr, none) :=
  C9_start_idempotent_when_running c9mgr ⟨⟨99, none⟩, 5⟩ "svc" c9spec
    ⟨42, none⟩ (by decide) (by decide) (by decide)

/-- C3 counterexample: registering a name that is already registered does
not fail in any way — the source `register` is three plain dict writes with
no raise path (embedded as a total function), and the duplicate call
completes normally, silently replacing the stored spec while keeping the
existing desired-running/restart-count entries. -/
theorem C3_register_duplicate_no_failure_cex :
    (((StackManager.init (LogStore.init 10)).register c3specA).register
        c3specB).services = [("a", c3specB)] ∧
    (((StackManager.init (LogStore.init 10)).register c3specA).register
        c3specB).desired_running = [("a", true)] ∧
    (((StackManager.init (LogStore.init 10)).register c3specA).register
        c3specB).restart_counts = [("a", 0)] := by
  decide

/-- C3 amended: register never fails; it stores the spec under its name
unconditionally (replacing any previous spec of that name), and the
setdefault calls initialize desired-running to true and restart-count to 0
only when the name had no entries yet, preserving existing values
otherwise. -/
theorem C3_register_amended (m : StackManager) (spec : ServiceSpec) :
    dictGet (m.register spec).services spec.name = some spec ∧
    (dictGet m.desired_running spec.name = none →
      dictGet (m.register spec).desired_running spec.name = some true) ∧
    (dictGet m.restart_counts spec.name = none →
      dictGet (m.register spec).restart_counts spec.name = some 0) ∧
    (∀ b, dictGet m.desired_running spec.name = some b →
      dictGet (m.register spec).desired_running spec.name = some b) ∧
    (∀ k, dictGet m.restart_counts spec.name = some k →
      dictGet (m.register spec).restart_counts spec.name = some k) := by
  refine ⟨?_, ?_, ?_, ?_, ?_⟩
  · unfold StackManager.register
    simp [dictGet_dictSet]
  · intro h
    unfold StackManager.register
    simp only
    rw [dictGet_dictSetdefault_self, h]
    rfl
  · intro h
    unfold StackManager.register
    simp only
    rw [dictGet_dictSetdefault_self, h]
    rfl
  · intro b h
    unfold StackManager.register
    simp only
    exact dictGet_dictSetdefault_some _ _ _ _ h
  · intro k h
    unfold StackManager.register
    simp only
    exact dictGet_dictSetdefault_some _ _ _ _ h

theorem C3_register_amended_witness :
    dictGet ((StackManager.init (LogStore.init 10)).register
      c3specA).services "a" = some c3specA ∧
    dictGet ((StackManager.init (LogStore.init 10)).register
      c3specA).desired_running "a" = some true :=
  ⟨(C3_register_amended (StackManager.init (LogStore.init 10)) c3specA).1,
   (C3_register_amended (StackManager.init (LogStore.init 10))
     c3specA).2.1 (by decide)⟩

/-- C1 (code bug evidence): the source `start` consults no port or listener
information at all — its only inputs are the registry, the process map and
the spawn result — so whatever occupies port 4000 (matching or foreign,
e.g. the unit tests' foreign pid 33333 running "python -m http.server
4000"), `start` spawns a child and returns success, and never signals any
listener.  The repository's own test
`test_start_does_not_kill_unrelated_listener` expects `start` to return
failure there, and `test_start_auto_frees_stale_listener_for_same_repo`
expects a matching listener to be terminated first; both behaviours are
absent from this revision of the code. -/
theorem C1_start_ignores_listeners :
    (c1mgr.start ⟨⟨22222, none⟩, 3⟩ "frontend").1 = true ∧
    (c1mgr.start ⟨⟨22222, none⟩, 3⟩ "frontend").2.2 = some ⟨22222, none⟩ := by
  decide

/-- For a registered service, `restart` computes the prior pid from a state
whose process map is untouched by the counter bump and the log append, so
the call reduces (definitionally) to this normal form with the prior pid
read from the initial state. -/
theorem StackManager.restart_reduce (m : StackManager) (e : RestartEnv)
    (name : String) (spec : ServiceSpec)
    (h : dictGet m.services name = some spec) :
    m.restart e name =
      (let newCount := (dictGet m.restart_counts name).getD 0 + 1
       let m1 := { m with
         restart_counts := dictSet m.restart_counts name newCount }
       let m2 := { m1 with log_store :=
         (m1.log_store.append name e.now "[runner] restart requested").1 }
       let m3 := (m2.stop e.now name).2
       if spec.port ≠ 0 then
         match portWait (m.oldPidOf name) e.obs with
         | .blocked listeners =>
             let m4 := { m3 with log_store := (m3.log_store.append name e.now
               ("[runner] restart blocked: port " ++ toString spec.port ++
                 " in use by PID(s): " ++ String.intercalate ", "
                   ((listeners.take 5).map toString))).1 }
             (false, m4, none)
         | _ => m3.start e.spawn name
       else m3.start e.spawn name) := by
  unfold StackManager.restart
  rw [h]
  rfl

/-- C2 counterexample: a registered service on port 4000 whose own prior pid
100 keeps the port busy through every wait iteration until the deadline
expires.  The claim says such a restart returns failure without attempting
to start; the code instead falls out of the wait loop, starts the service
(spawning pid 200) and returns success. -/

theorem C2_restart_starts_after_deadline_cex :
    (c2mgr.restart c2env "svc").1 = true ∧
    (c2mgr.restart c2env "svc").2.2 = some ⟨200, none⟩ := by
  decide

/-- C2 amended: when the wait loop observes the port held by a pid other
than the service's own prior pid (the prior pid being known), the restart
aborts: it returns failure, never calls `_popen`, and leaves the service
stopped.  (If the port merely fails to free before the deadline, the code
proceeds to attempt the start anyway.) -/
theorem C2_blocked_restart_aborts (m : StackManager) (e : RestartEnv)
    (name : String) (spec : ServiceSpec) (ls : List Nat)
    (h1 : dictGet m.services name = some spec)
    (h2 : spec.port ≠ 0)
    (h3 : portWait (m.oldPidOf name) e.obs = .blocked ls) :
    (m.restart e name).1 = false ∧ (m.restart e name).2.2 = none ∧
    dictGet (m.restart e name).2.1.procs name = none := by
  rw [StackManager.restart_reduce m e name spec h1]
  simp only [if_pos h2, h3]
  refine ⟨trivial, trivial, ?_⟩
  exact StackManager.stop_procs_none _ _ _ spec h1

theorem C2_blocked_restart_aborts_witness :
    (c2mgr.restart ⟨[([300], true)], ⟨⟨200, none⟩, 9⟩, 9⟩ "svc").1 = false :=
  (C2_blocked_restart_aborts c2mgr ⟨[([300], true)], ⟨⟨200, none⟩, 9⟩, 9⟩
    "svc" c2spec [300] (by decide) (by decide) (by decide)).1

/-- C5: when the last recorded exit code differs from `code` (and the
operator still wants the service running), `note_exit` appends exactly one
"process exited with code" line to that service's buffer, and every repeated
call with the same code afterwards is a no-op, so the line is recorded once
per distinct code value; the embedding is a total function, so no exception
can cross the supervisor. -/
theorem C5_note_exit_once_per_code (m : StackManager) (now now2 : Nat)
    (name : String) (code : Int)
    (h1 : dictGet m.last_exit_codes name ≠ some code)
    (h2 : dictGet m.desired_running name = some true) :
    dictGet (m.note_exit now name code).log_store.entries name =
      some (takeLast m.log_store.max_entries
        (((dictGet m.log_store.entries name).getD []) ++
         [⟨m.log_store.next_id, now,
           "[runner] process exited with code " ++ toString code⟩])) ∧
    ∀ k : Nat, Nat.iterate (fun mm => mm.note_exit now2 name code) k
      (m.note_exit now name code) = m.note_exit now name code := by
  have hrec : m.note_exit now name code = { m with
      last_exit_codes := dictSet m.last_exit_codes name code,
      log_store := (m.log_store.append name now
        ("[runner] process exited with code " ++ toString code)).1 } := by
    unfold StackManager.note_exit
    cases hEq : dictGet m.last_exit_codes name with
    | none => rfl
    | some last =>
        have hne : ¬(last = code) := fun hc => h1 (by rw [hEq, hc])
        simp [hne]
  constructor
  · rw [hrec]
    show dictGet (dictSet m.log_store.entries name _) name = _
    rw [dictGet_dictSet]
    simp
  · have hfix : (m.note_exit now name code).note_exit now2 name code =
        m.note_exit now name code := by
      conv_lhs => rw [hrec]
      conv_rhs => rw [hrec]
      unfold StackManager.note_exit
      simp [dictGet_dictSet]
    intro k
    induction k with
    | zero => rfl
    | succ n ih =>
        rw [Function.iterate_succ_apply]
        show Nat.iterate _ n ((m.note_exit now name code).note_exit
          now2 name code) = _
        rw [hfix]
        exact ih

theorem C5_note_exit_once_per_code_witness :
    dictGet (c5mgr.note_exit 7 "svc" 1).log_store.entries "svc" =
      some (takeLast c5mgr.log_store.max_entries
        (((dictGet c5mgr.log_store.entries "svc").getD []) ++
         [⟨c5mgr.log_store.next_id, 7,
           "[runner] process exited with code " ++ toString (1 : Int)⟩])) :=
  (C5_note_exit_once_per_code c5mgr 7 8 "svc" 1 (by decide) (by decide)).1

/-- C10: for a registered service, every `restart` call — whatever the wait
loop observes, including blocked restarts that return failure — increments
that service's restart counter by exactly one, and `status_snapshot` on the
resulting state reports exactly this attempt count for that service. -/
theorem C10_restart_increments_count (m : StackManager) (e : RestartEnv)
    (se : SnapshotEnv) (name : String) (spec : ServiceSpec)
    (h : dictGet m.services name = some spec) :
    dictGet (m.restart e name).2.1.restart_counts name =
      some ((dictGet m.restart_counts name).getD 0 + 1) ∧
    (∀ row ∈ ((m.restart e name).2.1.status_snapshot se).1,
      row.name = name →
        row.restart_count = (dictGet m.restart_counts name).getD 0 + 1) ∧
    (∃ row ∈ ((m.restart e name).2.1.status_snapshot se).1,
      row.name = name) := by
  have hkey : (m.restart e name).2.1.restart_counts =
      dictSet m.restart_counts name
        ((dictGet m.restart_counts name).getD 0 + 1) ∧
      (m.restart e name).2.1.services = m.services := by
    rw [StackManager.restart_reduce m e name spec h]
    simp only
    by_cases hp : spec.port ≠ 0
    · rw [if_pos hp]
      cases hw : portWait (m.oldPidOf name) e.obs with
      | blocked listeners =>
          constructor
          · show (StackManager.stop _ e.now name).2.restart_counts = _
            rw [StackManager.stop_counts]
          · show (StackManager.stop _ e.now name).2.services = _
            rw [StackManager.stop_services]
      | freed =>
          constructor
          · rw [StackManager.start_counts, StackManager.stop_counts]
          · rw [StackManager.start_services, StackManager.stop_services]
      | deadline =>
          constructor
          · rw [StackManager.start_counts, StackManager.stop_counts]
          · rw [StackManager.start_services, StackManager.stop_services]
    · rw [if_neg hp]
      constructor
      · rw [StackManager.start_counts, StackManager.stop_counts]
      · rw [StackManager.start_services, StackManager.stop_services]
  refine ⟨?_, ?_, ?_⟩
  · rw [hkey.1, dictGet_dictSet]
    simp
  · intro row hrow hname
    obtain ⟨kv, hkv, hkname, hkcount⟩ :=
      snapGo_row_names se (m.restart e name).2.1.services
        (m.restart e name).2.1 row hrow
    have hkv1 : kv.1 = name := by rw [← hkname, hname]
    rw [hkcount, hkv1, hkey.1, dictGet_dictSet]
    simp
  · have hmem : (name, spec) ∈ (m.restart e name).2.1.services := by
      rw [hkey.2]
      exact dictGet_mem _ _ _ h
    obtain ⟨row, hrow, hname⟩ :=
      snapGo_exists_row se (m.restart e name).2.1.services
        (m.restart e name).2.1 (name, spec) hmem
    exact ⟨row, hrow, hname⟩

theorem C10_restart_increments_count_witness :
    dictGet (c9mgr.restart ⟨[], ⟨⟨77, none⟩, 4⟩, 4⟩ "svc").2.1.restart_counts
      "svc" = some 1 :=
  (C10_restart_increments_count c9mgr ⟨[], ⟨⟨77, none⟩, 4⟩, 4⟩
    ⟨0, fun _ => false, fun _ => (false, "n"), fun _ => []⟩ "svc" c9spec
    (by decide)).1

/-- admin/watchdog.py WatchRule (root as string, debounce in ticks). -/

theorem ruleStep_events (rule : WatchRule) (latest t : Nat)
    (s : RuleState) :
    ∀ e ∈ (ruleStep rule latest t s).2, e = eventOf rule := by
  obtain ⟨ls, ps⟩ := s
  intro e he
  cases ps with
  | none =>
      by_cases hlt : ls < latest
      · by_cases ht : 0 < rule.debounce_s
        · simp [ruleStep, hlt, ht] at he
        · simp [ruleStep, hlt, ht] at he
          exact he
      · simp [ruleStep, hlt] at he
  | some p =>
      by_cases hlt : ls < latest
      · by_cases ht : t - p < rule.debounce_s
        · simp [ruleStep, hlt, ht] at he
        · simp [ruleStep, hlt, ht] at he
          exact he
      · by_cases ht : t - p < rule.debounce_s
        · simp [ruleStep, hlt, ht] at he
        · simp [ruleStep, hlt, ht] at he
          exact he

theorem pollGo_length (fs : Nat → Nat → Nat) (t : Nat) :
    ∀ (k : Nat) (rs : List WatchRule) (ss : List RuleState),
      ss.length = rs.length →
      (pollGo fs t k rs ss).1.length = rs.length := by
  intro k rs
  induction rs generalizing k with
  | nil => intro ss _; rfl
  | cons r rs' ih =>
      intro ss hlen
      cases ss with
      | nil => cases hlen
      | cons s ss' =>
          simp only [List.length_cons, Nat.succ.injEq] at hlen
          simp only [pollGo, List.length_cons]
          rw [ih (k + 1) ss' hlen]

theorem pollGo_events_from_rules (fs : Nat → Nat → Nat) (t : Nat) :
    ∀ (k : Nat) (rs : List WatchRule) (ss : List RuleState)
      (e : WatchEvent), e ∈ (pollGo fs t k rs ss).2 →
      ∃ r ∈ rs, e = eventOf r := by
  intro k rs
  induction rs generalizing k with
  | nil => intro ss e he; cases he
  | cons r rs' ih =>
      intro ss e he
      cases ss with
      | nil => cases he
      | cons s ss' =>
          simp only [pollGo, List.mem_append] at he
          rcases he with he | he
          · exact ⟨r, List.mem_cons_self _ _,
              ruleStep_events r (fs k t) t s e he⟩
          · obtain ⟨r', hr', he'⟩ := ih (k + 1) ss' e he
            exact ⟨r', List.mem_cons_of_mem _ hr', he'⟩

theorem pollGo_split (fs : Nat → Nat → Nat) (t : Nat) :
    ∀ (k : Nat) (rsa : List WatchRule) (ssa : List RuleState),
      ssa.length = rsa.length →
      ∀ (rule : WatchRule) (s : RuleState) (rsb : List WatchRule)
        (ssb : List RuleState),
      pollGo fs t k (rsa ++ rule :: rsb) (ssa ++ s :: ssb) =
        ((pollGo fs t k rsa ssa).1 ++
          (ruleStep rule (fs (k + rsa.length) t) t s).1 ::
            (pollGo fs t (k + rsa.length + 1) rsb ssb).1,
         (pollGo fs t k rsa ssa).2 ++
          (ruleStep rule (fs (k + rsa.length) t) t s).2 ++
            (pollGo fs t (k + rsa.length + 1) rsb ssb).2) := by
  intro k rsa
  induction rsa generalizing k with
  | nil =>
      intro ssa hlen rule s rsb ssb
      cases ssa with
      | nil => simp [pollGo]
      | cons a as => cases hlen
  | cons r0 rsa' ih =>
      intro ssa hlen rule s rsb ssb
      cases ssa with
      | nil => cases hlen
      | cons s0 ssa' =>
          simp only [List.length_cons, Nat.succ.injEq] at hlen
          simp only [List.cons_append, pollGo, List.append_eq]
          rw [ih (k + 1) ssa' hlen rule s rsb ssb]
          simp only [pollGo, List.length_cons, Prod.mk.injEq]
          rw [show k + 1 + rsa'.length = k + (rsa'.length + 1) by omega]
          exact ⟨rfl, by simp [List.append_assoc]⟩

theorem filter_pair_map (t : Nat) (evs : List WatchEvent)
    (target : WatchEvent) :
    ((evs.map (fun ev => (t, ev))).filter
        (fun te => decide (te.2 = target))) =
      (evs.filter (fun ev => decide (ev = target))).map
        (fun ev => (t, ev)) := by
  induction evs with
  | nil => rfl
  | cons e rest ih =>
      by_cases h : e = target
      · simp [List.filter, h, ih]
      · simp [List.filter, h, ih]

theorem runPolls_filter (fs : Nat → Nat → Nat)
    (rsa rsb : List WatchRule) (rule : WatchRule)
    (huniqa : ∀ r ∈ rsa, eventOf r ≠ eventOf rule)
    (huniqb : ∀ r ∈ rsb, eventOf r ≠ eventOf rule) :
    ∀ (polls : List Nat) (ssa ssb : List RuleState) (s : RuleState),
      ssa.length = rsa.length → ssb.length = rsb.length →
      ((runPolls fs (rsa ++ rule :: rsb) (ssa ++ s :: ssb) polls).2).filter
          (fun te => decide (te.2 = eventOf rule)) =
        (singleRun (fun t => fs rsa.length t) rule s polls).2 := by
  intro polls
  induction polls with
  | nil => intro ssa ssb s h1 h2; rfl
  | cons t ts ih =>
      intro ssa ssb s h1 h2
      simp only [runPolls, ServiceWatchdog.poll]
      rw [pollGo_split fs t 0 rsa ssa h1 rule s rsb ssb]
      simp only [List.map_append, List.filter_append, Nat.zero_add]
      have hA : (((pollGo fs t 0 rsa ssa).2.map
          (fun ev => (t, ev))).filter
            (fun te => decide (te.2 = eventOf rule))) = [] := by
        rw [filter_pair_map]
        have : ((pollGo fs t 0 rsa ssa).2.filter
            (fun ev => decide (ev = eventOf rule))) = [] := by
          rw [List.filter_eq_nil_iff]
          intro e he
          obtain ⟨r, hr, rfl⟩ :=
            pollGo_events_from_rules fs t 0 rsa ssa e he
          simpa using huniqa r hr
        rw [this]
        rfl
      have hB : (((ruleStep rule (fs rsa.length t) t s).2.map
          (fun ev => (t, ev))).filter
            (fun te => decide (te.2 = eventOf rule))) =
          ((ruleStep rule (fs rsa.length t) t s).2.map
            (fun ev => (t, ev))) := by
        rw [filter_pair_map]
        have : ((ruleStep rule (fs rsa.length t) t s).2.filter
            (fun ev => decide (ev = eventOf rule))) =
            (ruleStep rule (fs rsa.length t) t s).2 := by
          rw [List.filter_eq_self]
          intro e he
          simpa using ruleStep_events rule (fs rsa.length t) t s e he
        rw [this]
      have hC : (((pollGo fs t (rsa.length + 1) rsb ssb).2.map
          (fun ev => (t, ev))).filter
            (fun te => decide (te.2 = eventOf rule))) = [] := by
        rw [filter_pair_map]
        have : ((pollGo fs t (rsa.length + 1) rsb ssb).2.filter
            (fun ev => decide (ev = eventOf rule))) = [] := by
          rw [List.filter_eq_nil_iff]
          intro e he
          obtain ⟨r, hr, rfl⟩ :=
            pollGo_events_from_rules fs t (rsa.length + 1) rsb ssb e he
          simpa using huniqb r hr
        rw [this]
        rfl
      rw [hA, hB, hC]
      have hlenA : (pollGo fs t 0 rsa ssa).1.length = rsa.length :=
        pollGo_length fs t 0 rsa ssa h1
      have hlenC : (pollGo fs t (rsa.length + 1) rsb ssb).1.length =
          rsb.length := pollGo_length fs t _ rsb ssb h2
      rw [ih (pollGo fs t 0 rsa ssa).1
        (pollGo fs t (rsa.length + 1) rsb ssb).1
        (ruleStep rule (fs rsa.length t) t s).1 hlenA hlenC]
      simp [singleRun]

theorem foldl_max_le (B : Nat) :
    ∀ (l : List Nat) (acc : Nat), acc ≤ B → (∀ x ∈ l, x ≤ B) →
      l.foldl max acc ≤ B := by
  intro l
  induction l with
  | nil => intro acc hacc _; exact hacc
  | cons x xs ih =>
      intro acc hacc hall
      simp only [List.foldl_cons]
      exact ih (max acc x)
        (Nat.max_le.mpr ⟨hacc, hall x (List.mem_cons_self _ _)⟩)
        (fun y hy => hall y (List.mem_cons_of_mem _ hy))

theorem acc_le_foldl_max :
    ∀ (l : List Nat) (acc : Nat), acc ≤ l.foldl max acc := by
  intro l
  induction l with
  | nil => intro acc; exact Nat.le_refl _
  | cons x xs ih =>
      intro acc
      simp only [List.foldl_cons]
      exact Nat.le_trans (Nat.le_max_left acc x) (ih (max acc x))

theorem mem_le_foldl_max :
    ∀ (l : List Nat) (acc x : Nat), x ∈ l → x ≤ l.foldl max acc := by
  intro l
  induction l with
  | nil => intro acc x hx; cases hx
  | cons y ys ih =>
      intro acc x hx
      simp only [List.foldl_cons]
      rcases List.mem_cons.mp hx with rfl | hx'
      · exact Nat.le_trans (Nat.le_max_right acc x) (acc_le_foldl_max ys _)
      · exact ih (max acc y) x hx'

theorem latestMtime_le (mods : List Nat) (t B : Nat)
    (h : ∀ x ∈ mods, x ≤ t → x ≤ B) : latestMtime mods t ≤ B := by
  unfold latestMtime
  refine foldl_max_le B _ 0 (Nat.zero_le _) ?_
  intro x hx
  rw [List.mem_filter] at hx
  exact h x hx.1 (by simpa using hx.2)

theorem le_latestMtime (mods : List Nat) (t x : Nat) (hx : x ∈ mods)
    (hxt : x ≤ t) : x ≤ latestMtime mods t := by
  unfold latestMtime
  exact mem_le_foldl_max _ 0 x (List.mem_filter.mpr ⟨hx, by simpa using hxt⟩)

theorem latestMtime_congr (mods : List Nat) (t t' : Nat)
    (h : ∀ x ∈ mods, x ≤ t ↔ x ≤ t') :
    latestMtime mods t = latestMtime mods t' := by
  unfold latestMtime
  congr 1
  apply List.filter_congr
  intro x hx
  exact decide_eq_decide.mpr (h x hx)

theorem ruleStep_steady (rule : WatchRule) (latest t ls : Nat)
    (h : ¬ ls < latest) :
    ruleStep rule latest t ⟨ls, none⟩ = (⟨ls, none⟩, []) := by
  simp [ruleStep, h]

theorem ruleStep_trigger (rule : WatchRule) (latest t ls : Nat)
    (h : ls < latest) (hD : 0 < rule.debounce_s) :
    ruleStep rule latest t ⟨ls, none⟩ = (⟨latest, some t⟩, []) := by
  simp [ruleStep, h, hD]

theorem ruleStep_pending_wait (rule : WatchRule) (latest t ls p : Nat)
    (h : t - p < rule.debounce_s) :
    ruleStep rule latest t ⟨ls, some p⟩ = (⟨max ls latest, some p⟩, []) := by
  by_cases hlt : ls < latest
  · simp [ruleStep, hlt, h]
  · simp [ruleStep, hlt, h, Nat.max_eq_left (Nat.le_of_not_lt hlt)]

theorem ruleStep_pending_fire (rule : WatchRule) (latest t ls p : Nat)
    (h : ¬ t - p < rule.debounce_s) :
    ruleStep rule latest t ⟨ls, some p⟩ =
      (⟨max ls latest, none⟩, [eventOf rule]) := by
  by_cases hlt : ls < latest
  · simp [ruleStep, hlt, h]
  · simp [ruleStep, hlt, h, Nat.max_eq_left (Nat.le_of_not_lt hlt)]

theorem singleRun_append (ob : Nat → Nat) (rule : WatchRule) :
    ∀ (xs ys : List Nat) (s : RuleState),
      singleRun ob rule s (xs ++ ys) =
        ((singleRun ob rule (singleRun ob rule s xs).1 ys).1,
         (singleRun ob rule s xs).2 ++
           (singleRun ob rule (singleRun ob rule s xs).1 ys).2) := by
  intro xs
  induction xs with
  | nil => intro ys s; simp [singleRun]
  | cons x xs' ih =>
      intro ys s
      simp only [List.cons_append, singleRun, List.append_eq]
      rw [ih ys (ruleStep rule (ob x) x s).1]
      simp [List.append_assoc]

theorem pre_phase (ob : Nat → Nat) (rule : WatchRule) (b : Nat) :
    ∀ (pre : List Nat), (∀ t ∈ pre, ob t = b) →
      singleRun ob rule ⟨b, none⟩ pre = (⟨b, none⟩, []) := by
  intro pre
  induction pre with
  | nil => intro _; rfl
  | cons t ts ih =>
      intro hall
      have hob : ob t = b := hall t (List.mem_cons_self _ _)
      simp only [singleRun]
      rw [hob, ruleStep_steady rule b t b (Nat.lt_irrefl b)]
      rw [ih (fun u hu => hall u (List.mem_cons_of_mem _ hu))]
      rfl

theorem mid_phase (ob : Nat → Nat) (rule : WatchRule) (t1 M : Nat)
    (hbound : ∀ t, ob t ≤ M) :
    ∀ (mid : List Nat) (v : Nat),
      (∀ t ∈ mid, t - t1 < rule.debounce_s) → v ≤ M →
      ∃ v', singleRun ob rule ⟨v, some t1⟩ mid = (⟨v', some t1⟩, []) ∧
        v' ≤ M := by
  intro mid
  induction mid with
  | nil => intro v _ hv; exact ⟨v, rfl, hv⟩
  | cons t ts ih =>
      intro v hall hv
      simp only [singleRun]
      rw [ruleStep_pending_wait rule (ob t) t v t1
        (hall t (List.mem_cons_self _ _))]
      obtain ⟨v', hrun, hv'⟩ := ih (max v (ob t))
        (fun u hu => hall u (List.mem_cons_of_mem _ hu))
        (Nat.max_le.mpr ⟨hv, hbound t⟩)
      rw [hrun]
      exact ⟨v', rfl, hv'⟩

theorem tail_phase (ob : Nat → Nat) (rule : WatchRule) (M : Nat)
    (hbound : ∀ t, ob t ≤ M) :
    ∀ (tail : List Nat),
      singleRun ob rule ⟨M, none⟩ tail = (⟨M, none⟩, []) := by
  intro tail
  induction tail with
  | nil => rfl
  | cons t ts ih =>
      simp only [singleRun]
      rw [ruleStep_steady rule (ob t) t M (Nat.not_lt.mpr (hbound t))]
      rw [ih]
      rfl

theorem exists_first_ge (c : Nat) :
    ∀ (l : List Nat), (∃ t ∈ l, c ≤ t) →
      ∃ mid t2 tail, l = mid ++ t2 :: tail ∧ (∀ t ∈ mid, t < c) ∧
        c ≤ t2 := by
  intro l
  induction l with
  | nil => rintro ⟨t, ht, _⟩; cases ht
  | cons h hs ih =>
      rintro ⟨t, ht, hct⟩
      by_cases hch : c ≤ h
      · exact ⟨[], h, hs, rfl, fun u hu => absurd hu (List.not_mem_nil u),
          hch⟩
      · have ht' : t ∈ hs := by
          rcases List.mem_cons.mp ht with rfl | h'
          · exact absurd hct hch
          · exact h'
        obtain ⟨mid, t2, tail, heq, hmid, ht2⟩ := ih ⟨t, ht', hct⟩
        exact ⟨h :: mid, t2, tail, by rw [heq]; rfl,
          fun u hu => by
            rcases List.mem_cons.mp hu with rfl | hu'
            · exact Nat.lt_of_not_le hch
            · exact hmid u hu', ht2⟩

/-- One rule through one burst: all modifications land in `[m0, m0+W]` with
`W` shorter than the debounce, the baseline was primed before the burst,
`pre` are the polls before the first modification, `t1` the first poll at or
after it, and some later poll reaches `t1 + D`.  The rule emits exactly one
event, at the first poll `D` or more after `t1`, hence no earlier than
`m0 + D`. -/
theorem single_burst (rule : WatchRule) (D : Nat) (mods : List Nat)
    (t0 m0 W : Nat) (pre post : List Nat) (t1 : Nat)
    (hD : rule.debounce_s = D) (h0D : 0 < D) (hW : W < D)
    (hm0 : m0 ∈ mods)
    (hmods : ∀ x ∈ mods, x ≤ t0 ∨ (m0 ≤ x ∧ x ≤ m0 + W))
    (ht0 : t0 < m0)
    (hpre : ∀ t ∈ pre, t0 ≤ t ∧ t < m0)
    (ht1 : m0 ≤ t1)
    (hcov : ∃ t ∈ post, t1 + D ≤ t) :
    ∃ t2, (singleRun (latestMtime mods) rule
        ⟨latestMtime mods t0, none⟩ (pre ++ t1 :: post)).2 =
          [(t2, eventOf rule)] ∧ m0 + D ≤ t2 := by
  set ob := latestMtime mods with hob
  set b := latestMtime mods t0 with hb
  set M := latestMtime mods (m0 + W) with hM
  have hble : b ≤ t0 := latestMtime_le mods t0 t0 (fun x _ hx => hx)
  have hbound : ∀ t, ob t ≤ M := by
    intro t
    refine latestMtime_le mods t M ?_
    intro x hx _
    have hxle : x ≤ m0 + W := by
      rcases hmods x hx with h | h
      · omega
      · exact h.2
    exact le_latestMtime mods (m0 + W) x hx hxle
  have hafter : ∀ t, m0 + W ≤ t → ob t = M := by
    intro t htW
    refine latestMtime_congr mods t (m0 + W) ?_
    intro x hx
    have hxle : x ≤ m0 + W := by
      rcases hmods x hx with h | h
      · omega
      · exact h.2
    constructor
    · intro _; exact hxle
    · intro _; omega
  have hbefore : ∀ t, t0 ≤ t → t < m0 → ob t = b := by
    intro t h1 h2
    refine latestMtime_congr mods t t0 ?_
    intro x hx
    rcases hmods x hx with h | h
    · constructor
      · intro _; exact h
      · intro hxt0; omega
    · constructor
      · intro hxt; omega
      · intro hxt0; omega
  obtain ⟨mid, t2, tail, hpost, hmid, ht2⟩ :=
    exists_first_ge (t1 + D) post hcov
  have hm0D_t2 : m0 + D ≤ t2 := by omega
  refine ⟨t2, ?_, hm0D_t2⟩
  subst hpost
  rw [singleRun_append]
  rw [pre_phase ob rule b pre (fun t ht =>
    hbefore t (hpre t ht).1 (hpre t ht).2)]
  have hobt1 : m0 ≤ ob t1 := le_latestMtime mods t1 m0 hm0 ht1
  have hblt : b < ob t1 := by omega
  have h0D' : 0 < rule.debounce_s := by rw [hD]; exact h0D
  simp only [singleRun]
  rw [ruleStep_trigger rule (ob t1) t1 b hblt h0D']
  simp only
  rw [singleRun_append]
  obtain ⟨v', hmidrun, hv'⟩ := mid_phase ob rule t1 M hbound mid (ob t1)
    (fun t htm => by
      have := hmid t htm
      rw [hD]
      omega)
    (hbound t1)
  rw [hmidrun]
  simp only [singleRun]
  have hfire : ¬ t2 - t1 < rule.debounce_s := by rw [hD]; omega
  rw [ruleStep_pending_fire rule (ob t2) t2 v' t1 hfire]
  simp only
  have hobt2 : ob t2 = M := hafter t2 (by omega)
  have hmaxM : max v' (ob t2) = M := by
    rw [hobt2]
    exact Nat.max_eq_right hv'
  rw [hmaxM]
  rw [tail_phase ob rule M hbound tail]
  simp

theorem take_get_drop {α : Type} :
    ∀ (l : List α) (i : Nat) (x : α), l.get? i = some x →
      l = l.take i ++ x :: l.drop (i + 1) := by
  intro l
  induction l with
  | nil => intro i x h; cases h
  | cons a as ih =>
      intro i x h
      cases i with
      | zero =>
          simp only [List.get?] at h
          injection h with h
          subst h
          simp
      | succ n =>
          simp only [List.get?] at h
          have hrec := ih n x h
          show a :: as = a :: (as.take n ++ x :: as.drop (n + 1))
          rw [← hrec]

/-- C6: for every watch rule (at index `i` of an arbitrary rule list, its
service/action/reason triple not shared by another rule), a burst of
modifications all landing within a window `W` shorter than the debounce `D`
makes the polled watchdog emit exactly one event for that rule over the
entire poll sequence — however far it extends past the burst — and that
event fires no earlier than `D` after the first modification `m0`.  Polls
before the first modification see only the primed baseline; `t1` is the
first poll at or after `m0`; some later poll reaches `t1 + D` so the
debounce can elapse. -/
theorem C6_watchdog_debounce
    (rules : List WatchRule) (i : Nat) (rule : WatchRule)
    (fs : Nat → Nat → Nat) (mods : List Nat)
    (t0 m0 W D t1 : Nat) (pre post : List Nat)
    (hrule : rules.get? i = some rule)
    (huniq : ∀ j r, rules.get? j = some r → eventOf r = eventOf rule →
      j = i)
    (hD : rule.debounce_s = D) (h0D : 0 < D) (hW : W < D)
    (hfs : ∀ t, fs i t = latestMtime mods t)
    (hm0 : m0 ∈ mods)
    (hmods : ∀ x ∈ mods, x ≤ t0 ∨ (m0 ≤ x ∧ x ≤ m0 + W))
    (ht0 : t0 < m0)
    (hpre : ∀ t ∈ pre, t0 ≤ t ∧ t < m0)
    (ht1 : m0 ≤ t1)
    (hchain : List.Chain' (· < ·) (pre ++ t1 :: post))
    (hcov : ∃ t ∈ post, t1 + D ≤ t) :
    ∃ t2, ((runPolls fs rules (primeStates fs t0 rules)
        (pre ++ t1 :: post)).2).filter
          (fun te => decide (te.2 = eventOf rule)) =
        [(t2, eventOf rule)] ∧ m0 + D ≤ t2 := by
  obtain ⟨hlt, _⟩ := List.get?_eq_some.mp hrule
  have hrules_split : rules = rules.take i ++ rule :: rules.drop (i + 1) :=
    take_get_drop rules i rule hrule
  have hprime_get : (primeStates fs t0 rules).get? i =
      some ⟨fs i t0, none⟩ := by
    unfold primeStates
    rw [List.get?_map, List.get?_range hlt]
    rfl
  have hstates_split : primeStates fs t0 rules =
      (primeStates fs t0 rules).take i ++
        (⟨fs i t0, none⟩ : RuleState) ::
          (primeStates fs t0 rules).drop (i + 1) :=
    take_get_drop _ i _ hprime_get
  have hlen_states : (primeStates fs t0 rules).length = rules.length := by
    unfold primeStates
    rw [List.length_map, List.length_range]
  have hlenA : ((primeStates fs t0 rules).take i).length =
      (rules.take i).length := by
    rw [List.length_take, List.length_take, hlen_states]
  have hlenB : ((primeStates fs t0 rules).drop (i + 1)).length =
      (rules.drop (i + 1)).length := by
    rw [List.length_drop, List.length_drop, hlen_states]
  have htake_len : (rules.take i).length = i := by
    rw [List.length_take]
    exact Nat.min_eq_left (Nat.le_of_lt hlt)
  have huniqa : ∀ r ∈ rules.take i, eventOf r ≠ eventOf rule := by
    intro r hr heq
    obtain ⟨j, hj⟩ := List.mem_iff_get?.mp hr
    have hjlt : j < (rules.take i).length := by
      by_contra hc
      rw [List.get?_eq_none.mpr (Nat.le_of_not_lt hc)] at hj
      cases hj
    have hji : j < i := by
      rw [htake_len] at hjlt
      exact hjlt
    rw [List.get?_take hji] at hj
    have := huniq j r hj heq
    omega
  have huniqb : ∀ r ∈ rules.drop (i + 1), eventOf r ≠ eventOf rule := by
    intro r hr heq
    obtain ⟨j, hj⟩ := List.mem_iff_get?.mp hr
    rw [List.get?_drop] at hj
    have := huniq (i + 1 + j) r hj heq
    omega
  have hrun := runPolls_filter fs (rules.take i) (rules.drop (i + 1)) rule
    huniqa huniqb (pre ++ t1 :: post)
    ((primeStates fs t0 rules).take i)
    ((primeStates fs t0 rules).drop (i + 1))
    ⟨fs i t0, none⟩ hlenA hlenB
  rw [← hrules_split, ← hstates_split] at hrun
  rw [htake_len] at hrun
  have hfun : (fun t => fs i t) = latestMtime mods := funext hfs
  rw [hfun] at hrun
  rw [hfs t0] at hrun
  rw [hrun]
  exact single_burst rule D mods t0 m0 W pre post t1 hD h0D hW hm0 hmods
    ht0 hpre ht1 hcov

theorem C6_watchdog_debounce_witness :
    ∃ t2, ((runPolls (fun _ t => latestMtime [5] t) [c6rule]
        (primeStates (fun _ t => latestMtime [5] t) 2 [c6rule])
        ([3] ++ 6 :: [7, 9, 12])).2).filter
          (fun te => decide (te.2 = eventOf c6rule)) =
        [(t2, eventOf c6rule)] ∧ 5 + 3 ≤ t2 :=
  C6_watchdog_debounce [c6rule] 0 c6rule (fun _ t => latestMtime [5] t)
    [5] 2 5 0 3 6 [3] [7, 9, 12] rfl
    (fun j r hget _ => by
      cases j with
      | zero => rfl
      | succ n => simp [List.get?] at hget)
    rfl (by decide) (by decide) (fun t => rfl) (by decide) (by decide)
    (by decide) (by decide) (by decide)
    (by simp [List.chain'_cons])
    ⟨9, by decide, by decide⟩

end Moovent
